import Mathlib

/-!
Verification of the gene–tumor correlation visualizers
(`tumor_network.py` = network variant, `bad_survival_tree.py` = tree variant).

The embedding models the data-transformation core of both scripts:
* the per-category loader (`load_all_data`),
* the aggregation pass building `all_genes[gene][tumor] = pcc`
  (network variant) and `gene_tumors[gene].append(tumor)` (tree variant),
* the classification of cross-tumor genes,
* the representative-tumor selection (`max(tumor_pccs.items(), key=...)`),
* the per-category top-N cap (`df.nlargest(n, 'PCC')`),
* the score-to-size / score-to-edge-width linear interpolation.

Python dicts are modelled as association lists that preserve insertion
order (assignment to an existing key updates in place, a new key is
appended at the end), exactly as CPython dicts behave.  Scores are
modelled as rationals; Python's `ZeroDivisionError` is modelled with
`Except`.
-/

/-- One row of a category table: the `Gene Symbol` and `PCC` columns. -/
structure Row where
  gene : String
  pcc : Rat
deriving DecidableEq

/-- Lookup in an insertion-ordered association list (Python `d[k]` /
`k in d`). -/
def alistFind {α : Type} (k : String) : List (String × α) → Option α
  | [] => none
  | (k', v) :: rest => if k' = k then some v else alistFind k rest

/-- Assignment `d[k] = v` on an insertion-ordered association list:
updates the existing binding in place, or appends the new key at the
end, as a CPython dict does. -/
def alistInsert {α : Type} (k : String) (v : α) : List (String × α) → List (String × α)
  | [] => [(k, v)]
  | (k', v') :: rest => if k' = k then (k, v) :: rest else (k', v') :: alistInsert k v rest

/-- Python `d.setdefault(k, []).append(v)` — the tree variant's
`if g not in gene_tumors: gene_tumors[g] = []` followed by
`gene_tumors[g].append(t)`. -/
def alistAppendOne (k : String) (v : String) :
    List (String × List String) → List (String × List String)
  | [] => [(k, [v])]
  | (k', vs) :: rest =>
    if k' = k then (k, vs ++ [v]) :: rest else (k', vs) :: alistAppendOne k v rest

/-- The per-gene inner dict of `all_genes`, in insertion order:
tumor type ↦ PCC. -/
abbrev TumorPccs := List (String × Rat)

/-- The outer dict `all_genes`: gene ↦ (tumor ↦ PCC). -/
abbrev AllGenes := List (String × TumorPccs)

/-- `all_genes[g]` with the empty dict as default (the code creates the
inner dict on first sight of the gene). -/
def lookupD (g : String) (m : AllGenes) : TumorPccs :=
  (alistFind g m).getD []

/-- One iteration of the aggregation loop in
`MultiTumorNetworkVisualizer.create_network` (Step 1, lines 229–238):
`if gene_id not in all_genes: all_genes[gene_id] = {}` then
`all_genes[gene_id][tumor_type] = pcc`.  The pair carries
(tumor_type, row). -/
def aggregateStep (m : AllGenes) (cr : String × Row) : AllGenes :=
  alistInsert cr.2.gene (alistInsert cr.1 cr.2.pcc (lookupD cr.2.gene m)) m

/-- The whole aggregation pass over the flattened (tumor_type, row)
sequence. -/
def all_genes_of (pairs : List (String × Row)) : AllGenes :=
  pairs.foldl aggregateStep []

/-- Flattening of `tumor_data.items()` with the inner `df.iterrows()`
loop into the sequence of (tumor_type, row) pairs the aggregation pass
consumes, in iteration order. -/
def flatten_tables (tables : List (String × List Row)) : List (String × Row) :=
  tables.foldl (fun acc ct => acc ++ ct.2.map (fun r => (ct.1, r))) []

/-- Network variant classification:
`cross_tumor_genes = {g: ts for g, ts in all_genes.items() if len(ts) > 1}`,
read as a predicate on one gene. -/
def is_cross_tumor (m : AllGenes) (g : String) : Bool :=
  match alistFind g m with
  | some tumors => decide (1 < tumors.length)
  | none => false

/-- The categories (with multiplicity, in encounter order) under which a
gene occurs in the flattened input. -/
def categories_of (g : String) (pairs : List (String × Row)) : List String :=
  (pairs.filter (fun cr => cr.2.gene = g)).map Prod.fst

/-- Python's `max(l, key=lambda x: x[1])` on a nonempty prefix element
`b` and the remaining elements: keeps the current best and replaces it
only on a strictly larger key, so ties go to the earliest element. -/
def pyMaxFrom (b : String × Rat) : List (String × Rat) → String × Rat
  | [] => b
  | x :: xs => pyMaxFrom (if x.2 > b.2 then x else b) xs

/-- `max(tumor_pccs.items(), key=lambda x: x[1])` (raises on an empty
dict, hence `Option`). -/
def py_max : List (String × Rat) → Option (String × Rat)
  | [] => none
  | x :: xs => some (pyMaxFrom x xs)

/-- `main_tumor` in the cross-tumor loop of the network variant
(line 360). -/
def main_tumor_of (tumor_pccs : TumorPccs) : Option String :=
  (py_max tumor_pccs).map Prod.fst

/-- `df.nlargest(n, 'PCC')` (pandas, `keep='first'`): the first `n` rows
of the stable descending sort by PCC. -/
def nlargest (n : Nat) (df : List Row) : List Row :=
  (df.insertionSort (fun a b => b.pcc ≤ a.pcc)).take n

/-- The tree variant's `gene_tumors` dict after the per-tumor loops of
`create_survival_tree` (lines 239–253): each tumor's table is capped by
`nlargest`, then for every retained row the tumor type is appended to
the row's gene entry. -/
def gene_tumors_of (maxN : Nat) (tables : List (String × List Row)) :
    List (String × List String) :=
  tables.foldl
    (fun m ct => (nlargest maxN ct.2).foldl (fun m' r => alistAppendOne r.gene ct.1 m') m)
    []

/-- `gene_tumors[g]` read back as a list (empty when the gene never
occurred). -/
def lookupTumors (g : String) (m : List (String × List String)) : List String :=
  (alistFind g m).getD []

/-- Tree variant classification: `len(gene_tumors[g]) > 1` (lines
299–301). -/
def is_cross_tumor_tree (maxN : Nat) (tables : List (String × List Row)) (g : String) : Bool :=
  decide (1 < (lookupTumors g (gene_tumors_of maxN tables)).length)

/-- The loader shared by both variants (`load_all_data`): per category,
read the table (`pd.read_csv` may fail) and keep the rows with
`PCC >= min_correlation`; a failing category is logged and omitted, the
loop continues. -/
def load_all_data (cats : List String) (src : String → Except String (List Row))
    (minC : Rat) : List (String × List Row) :=
  match cats with
  | [] => []
  | c :: rest =>
    match src c with
    | Except.ok df => (c, df.filter (fun r => minC ≤ r.pcc)) :: load_all_data rest src minC
    | Except.error _ => load_all_data rest src minC

/-- Node size in the network variant (line 316):
`size_min + (pcc - min_correlation) * (size_max - size_min) / (1 - min_correlation)`. -/
def nodeSizeNet (minC sMin sMax pcc : Rat) : Rat :=
  sMin + (pcc - minC) * (sMax - sMin) / (1 - minC)

/-- The same computation with Python's `ZeroDivisionError` made
explicit: the denominator `1 - min_correlation` being zero raises. -/
def nodeSizeNetE (minC sMin sMax pcc : Rat) : Except Unit Rat :=
  if 1 - minC = 0 then Except.error () else Except.ok (nodeSizeNet minC sMin sMax pcc)

/-- `size_scale` in the tree variant (line 270):
`(correlation - min_correlation) / (1 - min_correlation)`. -/
def sizeScaleTree (minC pcc : Rat) : Rat :=
  (pcc - minC) / (1 - minC)

/-- Node size in the tree variant (line 271). -/
def nodeSizeTree (minC sMin sMax pcc : Rat) : Rat :=
  sMin + sizeScaleTree minC pcc * (sMax - sMin)

/-- Edge width in the tree variant (line 274): reuses `size_scale`. -/
def edgeWidthTree (minC wMin wMax pcc : Rat) : Rat :=
  wMin + sizeScaleTree minC pcc * (wMax - wMin)

/-- Edge width in the network variant (lines 320 and 413):
`width_min + (pcc - min_correlation) * (width_max - width_min)` — note
the absent `/(1 - min_correlation)` normalisation. -/
def edgeWidthNet (minC wMin wMax pcc : Rat) : Rat :=
  wMin + (pcc - minC) * (wMax - wMin)

/-- Clamp to the unit interval. -/
def clamp01 (t : Rat) : Rat := max 0 (min 1 t)

/-- Modelled from the spec (§4.3 `mapScoreToVisual`): the claimed
mapper, `out_lo + t * (out_hi - out_lo)` with
`t = (s - minScore) / (maxScore - minScore)` clamped to `[0,1]`;
used only to compare the code's formulas against the spec's words. -/
def mapScoreToVisual (s minScore maxScore outLo outHi : Rat) : Rat :=
  outLo + clamp01 ((s - minScore) / (maxScore - minScore)) * (outHi - outLo)

/-- Tumor nodes created by the tree variant (lines 206–229): the loop
over `tumor_data.items()` skips a category whose filtered table is
empty (`if df.empty: continue`). -/
def tree_tumor_nodes (tumor_data : List (String × List Row)) : List String :=
  tumor_data.foldl (fun acc ct => if ct.2.isEmpty then acc else acc ++ [ct.1]) []

/-- Tumor nodes created by the network variant (lines 247–278): the
loop over `self.tumor_types` skips only categories absent from
`tumor_data` (failed loads); an empty table still gets its node. -/
def net_tumor_nodes (tumor_types : List String) (tumor_data : List (String × List Row)) :
    List String :=
  tumor_types.foldl
    (fun acc t => if (alistFind t tumor_data).isSome then acc ++ [t] else acc) []

/-! ### Association-list lemmas -/

theorem alistFind_insert_self {α : Type} (k : String) (v : α) (m : List (String × α)) :
    alistFind k (alistInsert k v m) = some v := by
  induction m with
  | nil => simp [alistInsert, alistFind]
  | cons hd tl ih =>
    obtain ⟨k', v'⟩ := hd
    by_cases h : k' = k
    · simp [alistInsert, alistFind, h]
    · simp [alistInsert, alistFind, h, ih]

theorem alistFind_insert_ne {α : Type} {k k' : String} (h : k' ≠ k) (v : α)
    (m : List (String × α)) :
    alistFind k (alistInsert k' v m) = alistFind k m := by
  induction m with
  | nil => simp [alistInsert, alistFind, h]
  | cons hd tl ih =>
    obtain ⟨k'', v''⟩ := hd
    by_cases h2 : k'' = k'
    · subst h2
      have h3 : ¬ k'' = k := h
      simp [alistInsert, alistFind, h3]
    · by_cases h3 : k'' = k
      · subst h3
        simp [alistInsert, alistFind, h2]
      · simp [alistInsert, alistFind, h2, h3, ih]

theorem alistInsert_map_fst {α : Type} (k : String) (v : α) (m : List (String × α)) :
    (alistInsert k v m).map Prod.fst =
      if k ∈ m.map Prod.fst then m.map Prod.fst else m.map Prod.fst ++ [k] := by
  induction m with
  | nil => simp [alistInsert]
  | cons hd tl ih =>
    obtain ⟨k', v'⟩ := hd
    by_cases h : k' = k
    · simp [alistInsert, h]
    · have h2 : ¬ k = k' := fun hh => h hh.symm
      by_cases h3 : k ∈ tl.map Prod.fst
      · simp [alistInsert, h, h2, h3, ih]
      · simp [alistInsert, h, h2, h3, ih]

theorem nodup_alistInsert_map_fst {α : Type} (k : String) (v : α) {m : List (String × α)}
    (hm : (m.map Prod.fst).Nodup) : ((alistInsert k v m).map Prod.fst).Nodup := by
  rw [alistInsert_map_fst]
  by_cases h : k ∈ m.map Prod.fst
  · simpa [h] using hm
  · rw [if_neg h]
    refine List.Nodup.append hm (List.nodup_singleton k) ?_
    intro a ha hb
    rw [List.mem_singleton] at hb
    subst hb
    exact h ha

theorem alistFind_isSome_iff {α : Type} (k : String) (m : List (String × α)) :
    (alistFind k m).isSome = true ↔ k ∈ m.map Prod.fst := by
  induction m with
  | nil => simp [alistFind]
  | cons hd tl ih =>
    obtain ⟨k', v'⟩ := hd
    by_cases h : k' = k
    · simp [alistFind, h]
    · have h2 : ¬ k = k' := fun hh => h hh.symm
      simp [alistFind, h, h2, ih]

theorem alistFind_eq_of_mem {α : Type} {k : String} {v : α} {m : List (String × α)}
    (hm : (m.map Prod.fst).Nodup) (hkv : (k, v) ∈ m) : alistFind k m = some v := by
  induction m with
  | nil => simp at hkv
  | cons hd tl ih =>
    obtain ⟨k', v'⟩ := hd
    rcases List.mem_cons.mp hkv with heq | htl
    · injection heq with h1 h2
      subst h1
      subst h2
      simp [alistFind]
    · have hne : k' ≠ k := by
        intro hh
        subst hh
        exact (List.nodup_cons.mp hm).1 (List.mem_map.mpr ⟨(k', v), htl, rfl⟩)
      simp [alistFind, hne, ih (List.nodup_cons.mp hm).2 htl]

/-! ### Characterization of the network aggregation pass -/

/-- Effect of one aggregation step on one gene's inner dict. -/
theorem lookupD_aggregateStep (m : AllGenes) (cr : String × Row) (g : String) :
    lookupD g (aggregateStep m cr) =
      if cr.2.gene = g then alistInsert cr.1 cr.2.pcc (lookupD g m) else lookupD g m := by
  by_cases h : cr.2.gene = g
  · simp [aggregateStep, lookupD, h, alistFind_insert_self]
  · simp [aggregateStep, lookupD, alistFind_insert_ne h, h]

/-- The score stored for (gene, tumor) after folding a batch of pairs:
the last matching pair wins; if none matches, the accumulator's entry
survives. -/
theorem scoreAt_foldl (pairs : List (String × Row)) (m : AllGenes) (g c : String) :
    alistFind c (lookupD g (pairs.foldl aggregateStep m)) =
      match pairs.reverse.find? (fun cr => decide (cr.2.gene = g ∧ cr.1 = c)) with
      | some cr => some cr.2.pcc
      | none => alistFind c (lookupD g m) := by
  induction pairs generalizing m with
  | nil => simp
  | cons cr rest ih =>
    rw [List.foldl_cons, ih (aggregateStep m cr), List.reverse_cons, List.find?_append]
    cases hfind : rest.reverse.find? (fun cr => decide (cr.2.gene = g ∧ cr.1 = c)) with
    | some x => simp [hfind]
    | none =>
      simp only [hfind, Option.none_orElse]
      rw [lookupD_aggregateStep]
      by_cases hg : cr.2.gene = g
      · by_cases hc : cr.1 = c
        · simp [List.find?, hg, hc, hc ▸ alistFind_insert_self cr.1 cr.2.pcc (lookupD g m)]
        · have hc2 : cr.1 ≠ c := hc
          simp [List.find?, hg, hc, alistFind_insert_ne hc2]
      · simp [List.find?, hg]

/-- Last-write-wins form of the aggregation: the stored PCC for
(gene g, tumor c) is the PCC of the last input pair carrying that gene
and tumor. -/
theorem scoreAt_all_genes (pairs : List (String × Row)) (g c : String) :
    alistFind c (lookupD g (all_genes_of pairs)) =
      (pairs.reverse.find? (fun cr => decide (cr.2.gene = g ∧ cr.1 = c))).map
        (fun cr => cr.2.pcc) := by
  rw [all_genes_of, scoreAt_foldl]
  cases hfind : pairs.reverse.find? (fun cr => decide (cr.2.gene = g ∧ cr.1 = c)) with
  | some x => rfl
  | none => simp [lookupD, alistFind]

/-- A (gene, tumor) entry exists in the aggregate iff some input pair
carries it. -/
theorem scoreAt_isSome_iff (pairs : List (String × Row)) (g c : String) :
    (alistFind c (lookupD g (all_genes_of pairs))).isSome = true ↔
      ∃ r : Row, (c, r) ∈ pairs ∧ r.gene = g := by
  rw [scoreAt_all_genes]
  have hmap : ∀ o : Option (String × Row),
      (o.map fun cr => cr.2.pcc).isSome = o.isSome := by
    intro o
    cases o <;> rfl
  rw [hmap, List.find?_isSome]
  constructor
  · rintro ⟨cr, hmem, hp⟩
    rw [List.mem_reverse] at hmem
    simp only [decide_eq_true_eq] at hp
    exact ⟨cr.2, by rwa [← hp.2], hp.1⟩
  · rintro ⟨r, hmem, hg⟩
    exact ⟨(c, r), List.mem_reverse.mpr hmem, by simp [hg]⟩

/-- Every stored (tumor, pcc) value comes from an input pair. -/
theorem scoreAt_provenance {pairs : List (String × Row)} {g c : String} {p : Rat}
    (h : alistFind c (lookupD g (all_genes_of pairs)) = some p) :
    ∃ r : Row, (c, r) ∈ pairs ∧ r.gene = g ∧ r.pcc = p := by
  rw [scoreAt_all_genes] at h
  cases hfind : pairs.reverse.find? (fun cr => decide (cr.2.gene = g ∧ cr.1 = c)) with
  | none => rw [hfind] at h; simp at h
  | some cr =>
    rw [hfind] at h
    have hp := List.find?_some hfind
    have hmem := List.mem_reverse.mp (List.mem_of_find?_eq_some hfind)
    simp only [decide_eq_true_eq] at hp
    exact ⟨cr.2, by rwa [← hp.2], hp.1, Option.some.inj h⟩

/-- The inner dicts built by the aggregation never repeat a tumor key. -/
theorem nodup_inner_keys_foldl (pairs : List (String × Row)) (m : AllGenes)
    (hm : ∀ g, ((lookupD g m).map Prod.fst).Nodup) (g : String) :
    ((lookupD g (pairs.foldl aggregateStep m)).map Prod.fst).Nodup := by
  induction pairs generalizing m with
  | nil => exact hm g
  | cons cr rest ih =>
    rw [List.foldl_cons]
    refine ih (aggregateStep m cr) (fun g' => ?_)
    rw [lookupD_aggregateStep]
    by_cases h : cr.2.gene = g'
    · simpa [h] using nodup_alistInsert_map_fst cr.1 cr.2.pcc (hm g')
    · simpa [h] using hm g'

theorem nodup_inner_keys (pairs : List (String × Row)) (g : String) :
    ((lookupD g (all_genes_of pairs)).map Prod.fst).Nodup :=
  nodup_inner_keys_foldl pairs [] (fun _ => by simp [lookupD, alistFind]) g

/-! ### Characterization of the tree variant's gene_tumors pass -/

theorem lookupTumors_appendOne (g g' c : String) (m : List (String × List String)) :
    lookupTumors g (alistAppendOne g' c m) =
      lookupTumors g m ++ (if g' = g then [c] else []) := by
  induction m with
  | nil =>
    by_cases h : g' = g <;> simp [alistAppendOne, lookupTumors, alistFind, h]
  | cons hd tl ih =>
    obtain ⟨k, vs⟩ := hd
    by_cases h : k = g'
    · subst h
      by_cases h2 : k = g
      · simp [alistAppendOne, lookupTumors, alistFind, h2]
      · simp [alistAppendOne, lookupTumors, alistFind, h2]
    · by_cases h2 : k = g
      · have h3 : ¬ g' = g := fun hh => h (h2.trans hh.symm)
        have h4 : ¬ g = g' := fun hh => h3 hh.symm
        simp [alistAppendOne, lookupTumors, alistFind, h, h2, h3, h4]
      · simpa [alistAppendOne, lookupTumors, alistFind, h, h2] using ih

theorem lookupTumors_inner_foldl (rows : List Row) (c : String)
    (m : List (String × List String)) (g : String) :
    lookupTumors g (rows.foldl (fun m' r => alistAppendOne r.gene c m') m) =
      lookupTumors g m ++
        List.replicate (rows.countP (fun r => decide (r.gene = g))) c := by
  induction rows generalizing m with
  | nil => simp
  | cons r rest ih =>
    rw [List.foldl_cons, ih, lookupTumors_appendOne, List.countP_cons]
    by_cases h : r.gene = g
    · simp [h, List.replicate_succ, List.append_assoc]
    · simp [h]

theorem lookupTumors_outer_foldl (tables : List (String × List Row)) (maxN : Nat)
    (m : List (String × List String)) (g : String) :
    lookupTumors g
        (tables.foldl
          (fun m ct => (nlargest maxN ct.2).foldl (fun m' r => alistAppendOne r.gene ct.1 m') m)
          m) =
      lookupTumors g m ++
        (tables.map (fun ct =>
          List.replicate ((nlargest maxN ct.2).countP (fun r => decide (r.gene = g))) ct.1)).flatten := by
  induction tables generalizing m with
  | nil => simp
  | cons ct rest ih =>
    rw [List.foldl_cons, ih, lookupTumors_inner_foldl]
    simp [List.append_assoc]

theorem lookupTumors_gene_tumors (maxN : Nat) (tables : List (String × List Row)) (g : String) :
    lookupTumors g (gene_tumors_of maxN tables) =
      (tables.map (fun ct =>
        List.replicate ((nlargest maxN ct.2).countP (fun r => decide (r.gene = g))) ct.1)).flatten := by
  rw [gene_tumors_of, lookupTumors_outer_foldl]
  simp [lookupTumors, alistFind]

/-- A tumor recorded for a gene in the tree variant always comes from a
table whose capped top-N contains the gene. -/
theorem lookupTumors_mem_source {maxN : Nat} {tables : List (String × List Row)} {g c : String}
    (h : c ∈ lookupTumors g (gene_tumors_of maxN tables)) :
    ∃ t, (c, t) ∈ tables ∧ g ∈ (nlargest maxN t).map Row.gene := by
  rw [lookupTumors_gene_tumors] at h
  rw [List.mem_flatten] at h
  obtain ⟨s, hs, hcs⟩ := h
  rw [List.mem_map] at hs
  obtain ⟨ct, hct, rfl⟩ := hs
  rw [List.mem_replicate] at hcs
  obtain ⟨hcnt, rfl⟩ := hcs
  have hpos : 0 < (nlargest maxN ct.2).countP (fun r => decide (r.gene = g)) :=
    Nat.pos_of_ne_zero hcnt
  rw [List.countP_pos_iff] at hpos
  obtain ⟨r, hr, hrg⟩ := hpos
  simp only [decide_eq_true_eq] at hrg
  exact ⟨ct.2, hct, List.mem_map.mpr ⟨r, hr, hrg⟩⟩

/-! ### Counting occurrences of a gene under a no-duplicates hypothesis -/

theorem countP_gene_le_one {l : List Row} (h : (l.map Row.gene).Nodup) (g : String) :
    l.countP (fun r => decide (r.gene = g)) ≤ 1 := by
  induction l with
  | nil => simp
  | cons r rest ih =>
    rw [List.map_cons, List.nodup_cons] at h
    rw [List.countP_cons]
    by_cases hg : r.gene = g
    · have hzero : rest.countP (fun r => decide (r.gene = g)) = 0 := by
        rw [List.countP_eq_zero]
        intro a ha
        simp only [decide_eq_true_eq]
        intro hag
        exact h.1 (List.mem_map.mpr ⟨a, ha, hag.trans hg.symm⟩)
      simp [hg, hzero]
    · simpa [hg] using ih h.2

theorem countP_gene_pos_iff (l : List Row) (g : String) :
    0 < l.countP (fun r => decide (r.gene = g)) ↔ g ∈ l.map Row.gene := by
  rw [List.countP_pos_iff, List.mem_map]
  constructor
  · rintro ⟨r, hr, hg⟩
    simp only [decide_eq_true_eq] at hg
    exact ⟨r, hr, hg⟩
  · rintro ⟨r, hr, hg⟩
    exact ⟨r, hr, by simp [hg]⟩

theorem replicate_countP_gene {l : List Row} (h : (l.map Row.gene).Nodup) (g c : String) :
    List.replicate (l.countP (fun r => decide (r.gene = g))) c =
      if g ∈ l.map Row.gene then [c] else [] := by
  by_cases hmem : g ∈ l.map Row.gene
  · have h1 : 0 < l.countP (fun r => decide (r.gene = g)) := (countP_gene_pos_iff l g).mpr hmem
    have h2 := countP_gene_le_one h g
    have : l.countP (fun r => decide (r.gene = g)) = 1 := Nat.le_antisymm h2 h1
    simp [this, hmem]
  · have h1 : l.countP (fun r => decide (r.gene = g)) = 0 := by
      by_contra hne
      exact hmem ((countP_gene_pos_iff l g).mp (Nat.pos_of_ne_zero hne))
    simp [h1, hmem]

/-- Stable sorting and capping keep the per-table genes duplicate-free. -/
theorem nodup_genes_nlargest (maxN : Nat) {df : List Row} (h : (df.map Row.gene).Nodup) :
    ((nlargest maxN df).map Row.gene).Nodup := by
  have hperm : List.Perm ((df.insertionSort (fun a b => b.pcc ≤ a.pcc)).map Row.gene)
      (df.map Row.gene) :=
    (List.perm_insertionSort (fun a b => b.pcc ≤ a.pcc) df).map Row.gene
  have hsorted : ((df.insertionSort (fun a b => b.pcc ≤ a.pcc)).map Row.gene).Nodup :=
    hperm.nodup_iff.mpr h
  rw [nlargest, List.map_take]
  exact hsorted.sublist (List.take_sublist maxN _)

/-- Under per-table deduplicated genes, the tree variant's recorded
tumor list for a gene is exactly the list of categories whose capped
table contains the gene, in table order. -/
theorem lookupTumors_of_nodup {maxN : Nat} {tables : List (String × List Row)}
    (h : ∀ ct ∈ tables, (ct.2.map Row.gene).Nodup) (g : String) :
    lookupTumors g (gene_tumors_of maxN tables) =
      (tables.filter (fun ct => decide (g ∈ (nlargest maxN ct.2).map Row.gene))).map Prod.fst := by
  rw [lookupTumors_gene_tumors]
  induction tables with
  | nil => simp
  | cons ct rest ih =>
    have hnodup : ((nlargest maxN ct.2).map Row.gene).Nodup :=
      nodup_genes_nlargest maxN (h ct (List.mem_cons_self ct rest))
    have hrest := ih (fun ct2 hct2 => h ct2 (List.mem_cons_of_mem ct hct2))
    rw [List.map_cons, List.flatten_cons, hrest, replicate_countP_gene hnodup g ct.1,
      List.filter_cons]
    by_cases hmem : g ∈ (nlargest maxN ct.2).map Row.gene
    · simp [hmem]
    · simp [hmem]

/-! ### Cross-tumor classification helpers -/

theorem is_cross_tumor_eq_length (m : AllGenes) (g : String) :
    is_cross_tumor m g = decide (1 < (lookupD g m).length) := by
  rw [is_cross_tumor]
  cases h : alistFind g m with
  | some tumors => simp [lookupD, h]
  | none => simp [lookupD, h]

theorem one_lt_length_iff_pair {α : Type} {l : List α} (h : l.Nodup) :
    1 < l.length ↔ ∃ a b, a ∈ l ∧ b ∈ l ∧ a ≠ b := by
  constructor
  · intro hlen
    match l, hlen with
    | a :: b :: t, _ =>
      refine ⟨a, b, List.mem_cons_self a _, List.mem_cons_of_mem a (List.mem_cons_self b t), ?_⟩
      intro hab
      exact (List.nodup_cons.mp h).1 (hab ▸ List.mem_cons_self b t)
  · rintro ⟨a, b, ha, hb, hab⟩
    by_contra hlen
    push_neg at hlen
    interval_cases hl : l.length
    · rw [List.length_eq_zero] at hl
      subst hl
      simp at ha
    · rw [List.length_eq_one] at hl
      obtain ⟨x, rfl⟩ := hl
      rw [List.mem_singleton] at ha hb
      exact hab (ha.trans hb.symm)

/-- A tumor key is present in a gene's entry of the aggregate iff the
flattened input mentions the (tumor, gene) combination. -/
theorem mem_inner_keys_iff (pairs : List (String × Row)) (g c : String) :
    c ∈ (lookupD g (all_genes_of pairs)).map Prod.fst ↔
      ∃ r : Row, (c, r) ∈ pairs ∧ r.gene = g := by
  rw [← alistFind_isSome_iff, scoreAt_isSome_iff]

/-- The network classification is exactly the existence of two distinct
categories carrying the gene, for any input order. -/
theorem cross_iff_two_categories (pairs : List (String × Row)) (g : String) :
    is_cross_tumor (all_genes_of pairs) g = true ↔
      ∃ c1 r1 c2 r2, (c1, r1) ∈ pairs ∧ (c2, r2) ∈ pairs ∧
        r1.gene = g ∧ r2.gene = g ∧ c1 ≠ c2 := by
  rw [is_cross_tumor_eq_length, decide_eq_true_eq]
  have hlen : (lookupD g (all_genes_of pairs)).length =
      ((lookupD g (all_genes_of pairs)).map Prod.fst).length := (List.length_map _ _).symm
  rw [hlen, one_lt_length_iff_pair (nodup_inner_keys pairs g)]
  constructor
  · rintro ⟨c1, c2, hc1, hc2, hne⟩
    obtain ⟨r1, hr1, hg1⟩ := (mem_inner_keys_iff pairs g c1).mp hc1
    obtain ⟨r2, hr2, hg2⟩ := (mem_inner_keys_iff pairs g c2).mp hc2
    exact ⟨c1, r1, c2, r2, hr1, hr2, hg1, hg2, hne⟩
  · rintro ⟨c1, r1, c2, r2, hr1, hr2, hg1, hg2, hne⟩
    exact ⟨c1, c2, (mem_inner_keys_iff pairs g c1).mpr ⟨r1, hr1, hg1⟩,
      (mem_inner_keys_iff pairs g c2).mpr ⟨r2, hr2, hg2⟩, hne⟩

/-! ### Python max with key: first maximal element wins -/

theorem pyMaxFrom_spec (xs : List (String × Rat)) : ∀ b : String × Rat,
    (pyMaxFrom b xs = b ∧ ∀ y ∈ xs, y.2 ≤ b.2) ∨
    (∃ l1 l2, xs = l1 ++ pyMaxFrom b xs :: l2 ∧ b.2 < (pyMaxFrom b xs).2 ∧
      (∀ y ∈ l1, y.2 < (pyMaxFrom b xs).2) ∧ (∀ y ∈ l2, y.2 ≤ (pyMaxFrom b xs).2)) := by
  induction xs with
  | nil =>
    intro b
    left
    exact ⟨rfl, by simp⟩
  | cons x rest ih =>
    intro b
    by_cases h : x.2 > b.2
    · have hstep : pyMaxFrom b (x :: rest) = pyMaxFrom x rest := by
        simp [pyMaxFrom, h]
      rw [hstep]
      rcases ih x with ⟨heq, hall⟩ | ⟨l1, l2, hxs, hb, h1, h2⟩
      · right
        rw [heq]
        exact ⟨[], rest, rfl, h, by simp, hall⟩
      · right
        refine ⟨x :: l1, l2, by rw [List.cons_append, ← hxs], lt_trans h hb, ?_, h2⟩
        intro y hy
        rcases List.mem_cons.mp hy with rfl | hy2
        · exact hb
        · exact h1 y hy2
    · have hstep : pyMaxFrom b (x :: rest) = pyMaxFrom b rest := by
        simp [pyMaxFrom, h]
      rw [hstep]
      push_neg at h
      rcases ih b with ⟨heq, hall⟩ | ⟨l1, l2, hxs, hb, h1, h2⟩
      · left
        refine ⟨heq, ?_⟩
        intro y hy
        rcases List.mem_cons.mp hy with rfl | hy2
        · exact h
        · exact hall y hy2
      · right
        refine ⟨x :: l1, l2, by rw [List.cons_append, ← hxs], hb, ?_, h2⟩
        intro y hy
        rcases List.mem_cons.mp hy with rfl | hy2
        · exact lt_of_le_of_lt h hb
        · exact h1 y hy2

/-- Decomposition form of the claim: python max returns the first
element attaining the maximal score. -/
theorem py_max_first_argmax {l : List (String × Rat)} (h : l ≠ []) :
    ∃ r l1 l2, py_max l = some r ∧ l = l1 ++ r :: l2 ∧
      (∀ y ∈ l1, y.2 < r.2) ∧ (∀ y ∈ l2, y.2 ≤ r.2) ∧ (∀ y ∈ l, y.2 ≤ r.2) := by
  match l, h with
  | x :: xs, _ =>
    rcases pyMaxFrom_spec xs x with ⟨heq, hall⟩ | ⟨l1, l2, hxs, hb, h1, h2⟩
    · refine ⟨x, [], xs, by simp [py_max, heq], by simp, by simp, hall, ?_⟩
      intro y hy
      rcases List.mem_cons.mp hy with rfl | hy2
      · exact heq ▸ le_refl _
      · exact heq ▸ hall y hy2
    · refine ⟨pyMaxFrom x xs, x :: l1, l2, by simp [py_max],
        by rw [List.cons_append, ← hxs], ?_, h2, ?_⟩
      · intro y hy
        rcases List.mem_cons.mp hy with rfl | hy2
        · exact hb
        · exact h1 y hy2
      · intro y hy
        rcases List.mem_cons.mp hy with rfl | hy2
        · exact le_of_lt hb
        · rw [hxs] at hy2
          rcases List.mem_append.mp hy2 with hy3 | hy3
          · exact le_of_lt (h1 y hy3)
          · rcases List.mem_cons.mp hy3 with rfl | hy4
            · exact le_refl _
            · exact h2 y hy4

theorem py_max_mem {l : List (String × Rat)} {m : String × Rat}
    (h : py_max l = some m) : m ∈ l := by
  have hne : l ≠ [] := by
    intro hnil
    subst hnil
    simp [py_max] at h
  obtain ⟨r, l1, l2, hr, hdec, -, -, -⟩ := py_max_first_argmax hne
  rw [h] at hr
  have hrm : m = r := Option.some.inj hr
  rw [hrm, hdec]
  exact List.mem_append.mpr (Or.inr (List.mem_cons_self _ _))

/-! ### Tumor node creation -/

theorem mem_tree_tumor_nodes_foldl (data : List (String × List Row)) :
    ∀ acc c, (c ∈ data.foldl (fun a ct => if ct.2.isEmpty then a else a ++ [ct.1]) acc ↔
      c ∈ acc ∨ ∃ t, (c, t) ∈ data ∧ t ≠ []) := by
  induction data with
  | nil => simp
  | cons ct rest ih =>
    intro acc c
    obtain ⟨cc, t⟩ := ct
    rw [List.foldl_cons]
    by_cases h : t.isEmpty
    · rw [if_pos h, ih]
      rw [List.isEmpty_iff] at h
      subst h
      constructor
      · rintro (hacc | ⟨t2, ht2, hne⟩)
        · exact Or.inl hacc
        · exact Or.inr ⟨t2, List.mem_cons_of_mem _ ht2, hne⟩
      · rintro (hacc | ⟨t2, ht2, hne⟩)
        · exact Or.inl hacc
        · rcases List.mem_cons.mp ht2 with heq | hmem
          · injection heq with h1 h2
            exact absurd h2 hne
          · exact Or.inr ⟨t2, hmem, hne⟩
    · rw [if_neg h, ih]
      rw [List.isEmpty_iff] at h
      constructor
      · rintro (hacc | ⟨t2, ht2, hne⟩)
        · rcases List.mem_append.mp hacc with h1 | h1
          · exact Or.inl h1
          · rw [List.mem_singleton] at h1
            exact Or.inr ⟨t, h1 ▸ List.mem_cons_self _ _, h⟩
        · exact Or.inr ⟨t2, List.mem_cons_of_mem _ ht2, hne⟩
      · rintro (hacc | ⟨t2, ht2, hne⟩)
        · exact Or.inl (List.mem_append.mpr (Or.inl hacc))
        · rcases List.mem_cons.mp ht2 with heq | hmem
          · injection heq with h1 h2
            exact Or.inl (List.mem_append.mpr (Or.inr (by simp [h1])))
          · exact Or.inr ⟨t2, hmem, hne⟩

/-- The tree variant creates a tumor node exactly for the loaded
categories whose filtered table is nonempty. -/
theorem mem_tree_tumor_nodes (data : List (String × List Row)) (c : String) :
    c ∈ tree_tumor_nodes data ↔ ∃ t, (c, t) ∈ data ∧ t ≠ [] := by
  rw [tree_tumor_nodes, mem_tree_tumor_nodes_foldl]
  simp

theorem mem_net_tumor_nodes_foldl (types : List String) (data : List (String × List Row)) :
    ∀ acc c, (c ∈ types.foldl (fun a ty => if (alistFind ty data).isSome then a ++ [ty] else a) acc ↔
      c ∈ acc ∨ (c ∈ types ∧ (alistFind c data).isSome)) := by
  induction types with
  | nil => simp
  | cons ty rest ih =>
    intro acc c
    rw [List.foldl_cons]
    by_cases h : (alistFind ty data).isSome
    · rw [if_pos h, ih]
      constructor
      · rintro (hacc | ⟨hmem, hsome⟩)
        · rcases List.mem_append.mp hacc with h1 | h1
          · exact Or.inl h1
          · rw [List.mem_singleton] at h1
            exact Or.inr ⟨h1 ▸ List.mem_cons_self _ _, h1 ▸ h⟩
        · exact Or.inr ⟨List.mem_cons_of_mem _ hmem, hsome⟩
      · rintro (hacc | ⟨hmem, hsome⟩)
        · exact Or.inl (List.mem_append.mpr (Or.inl hacc))
        · rcases List.mem_cons.mp hmem with rfl | hmem2
          · exact Or.inl (List.mem_append.mpr (Or.inr (by simp)))
          · exact Or.inr ⟨hmem2, hsome⟩
    · rw [if_neg h, ih]
      constructor
      · rintro (hacc | ⟨hmem, hsome⟩)
        · exact Or.inl hacc
        · exact Or.inr ⟨List.mem_cons_of_mem _ hmem, hsome⟩
      · rintro (hacc | ⟨hmem, hsome⟩)
        · exact Or.inl hacc
        · rcases List.mem_cons.mp hmem with rfl | hmem2
          · exact absurd hsome h
          · exact Or.inr ⟨hmem2, hsome⟩

/-- The network variant creates a tumor node for every discovered
category present in the loaded data, whether or not its table is
empty. -/
theorem mem_net_tumor_nodes (types : List String) (data : List (String × List Row)) (c : String) :
    c ∈ net_tumor_nodes types data ↔ c ∈ types ∧ (alistFind c data).isSome := by
  rw [net_tumor_nodes, mem_net_tumor_nodes_foldl]
  simp

/-! ### Loader characterization -/

/-- Per-category result of the loader: a category in the discovered
list is present with its threshold-filtered table exactly when its
source read succeeds; a failing source only removes that category. -/
theorem load_all_data_char (cats : List String) (src : String → Except String (List Row))
    (minC : Rat) (c : String) :
    alistFind c (load_all_data cats src minC) =
      if c ∈ cats then
        match src c with
        | Except.ok df => some (df.filter (fun r => minC ≤ r.pcc))
        | Except.error _ => none
      else none := by
  induction cats with
  | nil => simp [load_all_data, alistFind]
  | cons c2 rest ih =>
    by_cases hc : c2 = c
    · subst hc
      cases hsrc : src c2 with
      | ok df =>
        simp [load_all_data, hsrc, alistFind]
      | error e =>
        rw [load_all_data, hsrc, ih]
        by_cases hmem : c2 ∈ rest
        · simp [hmem, hsrc]
        · simp [hmem, hsrc]
    · have hcc : ¬ c = c2 := fun hh => hc hh.symm
      cases hsrc : src c2 with
      | ok df =>
        rw [load_all_data, hsrc]
        simp only [alistFind, hc, if_false]
        rw [ih]
        by_cases hmem : c ∈ rest
        · simp [hmem, hcc]
        · simp [hmem, hcc]
      | error e =>
        rw [load_all_data, hsrc, ih]
        by_cases hmem : c ∈ rest
        · simp [hmem, hcc]
        · simp [hmem, hcc]

example : all_genes_of [("A", ⟨"g1", 9/10⟩), ("B", ⟨"g1", 7/10⟩), ("A", ⟨"g2", 3/5⟩)]
    = [("g1", [("A", 9/10), ("B", 7/10)]), ("g2", [("A", 3/5)])] := by
  simp +decide [all_genes_of, aggregateStep, alistInsert, lookupD, alistFind]

example : is_cross_tumor (all_genes_of [("A", ⟨"g1", 9/10⟩), ("B", ⟨"g1", 7/10⟩)]) "g1"
    = true := by
  simp +decide [all_genes_of, aggregateStep, alistInsert, lookupD, alistFind, is_cross_tumor]

example : py_max [("A", 9/10), ("B", 9/10)] = some ("A", 9/10) := by
  norm_num [py_max, pyMaxFrom]

example : nlargest 1 [⟨"g2", 3/5⟩, ⟨"g1", 9/10⟩] = [⟨"g1", 9/10⟩] := by
  norm_num [nlargest, List.insertionSort, List.orderedInsert]

example : lookupTumors "g" (gene_tumors_of 1000 [("A", [⟨"g", 9/10⟩, ⟨"g", 4/5⟩])])
    = ["A", "A"] := by
  norm_num [lookupTumors, gene_tumors_of, nlargest, List.insertionSort, List.orderedInsert,
    alistAppendOne, alistFind]

/-! ### Interpolation helpers -/

theorem clamp01_of_bounds {t : Rat} (h0 : 0 ≤ t) (h1 : t ≤ 1) : clamp01 t = t := by
  rw [clamp01, min_eq_right h1, max_eq_right h0]

theorem scale_bounds {minC s : Rat} (hminC : minC < 1) (hs1 : minC ≤ s) (hs2 : s ≤ 1) :
    0 ≤ (s - minC) / (1 - minC) ∧ (s - minC) / (1 - minC) ≤ 1 := by
  have hpos : 0 < 1 - minC := by linarith
  constructor
  · exact div_nonneg (by linarith) (le_of_lt hpos)
  · rw [div_le_one hpos]
    linarith

theorem interp_bounds {t lo hi : Rat} (h0 : 0 ≤ t) (h1 : t ≤ 1) (hlo : lo ≤ hi) :
    lo ≤ lo + t * (hi - lo) ∧ lo + t * (hi - lo) ≤ hi := by
  constructor
  · nlinarith
  · nlinarith

/-! ### Claim C2 -/

/-- C2: for every score s with minScore ≤ s ≤ maxScore (= 1, hardcoded
in both variants), the computed node size equals the spec's clamped
linear interpolation, both variants compute the same value, and the
size stays inside [sizeMin, sizeMax]. -/
theorem C2_size_interpolation (minC sMin sMax s : Rat)
    (hminC : minC < 1) (hrange : sMin ≤ sMax) (hs1 : minC ≤ s) (hs2 : s ≤ 1) :
    nodeSizeNet minC sMin sMax s = mapScoreToVisual s minC 1 sMin sMax ∧
    nodeSizeTree minC sMin sMax s = mapScoreToVisual s minC 1 sMin sMax ∧
    sMin ≤ nodeSizeNet minC sMin sMax s ∧ nodeSizeNet minC sMin sMax s ≤ sMax := by
  obtain ⟨ht0, ht1⟩ := scale_bounds hminC hs1 hs2
  have hclamp : clamp01 ((s - minC) / (1 - minC)) = (s - minC) / (1 - minC) :=
    clamp01_of_bounds ht0 ht1
  have heq : nodeSizeNet minC sMin sMax s = mapScoreToVisual s minC 1 sMin sMax := by
    rw [nodeSizeNet, mapScoreToVisual, hclamp, mul_div_right_comm]
  have heq2 : nodeSizeTree minC sMin sMax s = mapScoreToVisual s minC 1 sMin sMax := by
    rw [nodeSizeTree, sizeScaleTree, mapScoreToVisual, hclamp]
  obtain ⟨hlo, hhi⟩ := interp_bounds ht0 ht1 hrange
  refine ⟨heq, heq2, ?_, ?_⟩
  · rw [heq, mapScoreToVisual, hclamp]
    exact hlo
  · rw [heq, mapScoreToVisual, hclamp]
    exact hhi

/-- Witness for C2 at the shipped network configuration
(min_correlation 0.5, node_size_range (3, 10)) and score 0.75. -/
theorem C2_size_interpolation_witness :
    ((1:Rat)/2 < 1 ∧ (3:Rat) ≤ 10 ∧ (1:Rat)/2 ≤ 3/4 ∧ (3:Rat)/4 ≤ 1) ∧
    (nodeSizeNet (1/2) 3 10 (3/4) = mapScoreToVisual (3/4) (1/2) 1 3 10 ∧
      nodeSizeTree (1/2) 3 10 (3/4) = mapScoreToVisual (3/4) (1/2) 1 3 10 ∧
      3 ≤ nodeSizeNet (1/2) 3 10 (3/4) ∧ nodeSizeNet (1/2) 3 10 (3/4) ≤ 10) :=
  ⟨⟨by norm_num, by norm_num, by norm_num, by norm_num⟩,
    C2_size_interpolation (1/2) 3 10 (3/4) (by norm_num) (by norm_num) (by norm_num)
      (by norm_num)⟩

/-! ### Claim C3 -/

/-- C3 counterexample: in the network variant at the shipped
configuration (min_correlation 0.5, edge_width_range (0.3, 1.5)) and
score 0.75, the computed edge width (0.6) is not
widthMin + t * (widthMax - widthMin) for the size interpolant
t = (s - minScore)/(maxScore - minScore) (which gives 0.9). -/
theorem C3_counterexample :
    edgeWidthNet (1/2) (3/10) (3/2) (3/4) ≠
      (3/10) + ((3/4 - 1/2) / (1 - 1/2)) * (3/2 - 3/10) := by
  norm_num [edgeWidthNet]

/-- C3 amended: the tree variant's edge width does reuse the size
interpolant, but the network variant omits the
/(maxScore - minScore) normalisation: its width is the spec mapper
taken over the input range [minScore, minScore + 1] instead of
[minScore, 1]. -/
theorem C3_edge_width_amended (minC wMin wMax s : Rat)
    (hminC0 : 0 ≤ minC) (hminC : minC < 1) (hs1 : minC ≤ s) (hs2 : s ≤ 1) :
    edgeWidthTree minC wMin wMax s = mapScoreToVisual s minC 1 wMin wMax ∧
    edgeWidthNet minC wMin wMax s = mapScoreToVisual s minC (minC + 1) wMin wMax := by
  obtain ⟨ht0, ht1⟩ := scale_bounds hminC hs1 hs2
  constructor
  · rw [edgeWidthTree, sizeScaleTree, mapScoreToVisual, clamp01_of_bounds ht0 ht1]
  · have hden : minC + 1 - minC = 1 := by ring
    have ht : (s - minC) / (minC + 1 - minC) = s - minC := by
      rw [hden, div_one]
    rw [edgeWidthNet, mapScoreToVisual, ht, clamp01_of_bounds (by linarith) (by linarith)]

/-- Witness for C3's amended statement at the shipped network
configuration and score 0.75. -/
theorem C3_edge_width_amended_witness :
    ((0:Rat) ≤ 1/2 ∧ (1:Rat)/2 < 1 ∧ (1:Rat)/2 ≤ 3/4 ∧ (3:Rat)/4 ≤ 1) ∧
    (edgeWidthTree (1/2) (3/10) (3/2) (3/4) = mapScoreToVisual (3/4) (1/2) 1 (3/10) (3/2) ∧
      edgeWidthNet (1/2) (3/10) (3/2) (3/4) =
        mapScoreToVisual (3/4) (1/2) (1/2 + 1) (3/10) (3/2)) :=
  ⟨⟨by norm_num, by norm_num, by norm_num, by norm_num⟩,
    C3_edge_width_amended (1/2) (3/10) (3/2) (3/4) (by norm_num) (by norm_num) (by norm_num)
      (by norm_num)⟩

/-! ### Claim C6 -/

/-- C6 counterexample: with min_correlation = 1 the score range is
degenerate (minScore = maxScore = 1, the hardcoded maximum), and the
size computation raises ZeroDivisionError instead of mapping the score
to sizeMax. -/
theorem C6_counterexample : nodeSizeNetE 1 3 10 1 ≠ Except.ok (10 : Rat) := by
  norm_num [nodeSizeNetE]
  intro h
  exact Except.noConfusion h

/-- C6 amended: the degenerate range (only reachable as
min_correlation = 1, since maxScore is hardcoded to 1) makes the size
computation divide by zero and fail; there is no t = 1.0 fallback. For
every non-degenerate configuration the computation succeeds. -/
theorem C6_degenerate_range_amended :
    (∀ sMin sMax pcc : Rat, nodeSizeNetE 1 sMin sMax pcc = Except.error ()) ∧
    (∀ minC sMin sMax pcc : Rat, minC ≠ 1 →
      nodeSizeNetE minC sMin sMax pcc = Except.ok (nodeSizeNet minC sMin sMax pcc)) := by
  constructor
  · intro sMin sMax pcc
    norm_num [nodeSizeNetE]
  · intro minC sMin sMax pcc h
    have hne : ¬ (1 - minC = 0) := by
      rw [sub_eq_zero]
      exact fun hh => h hh.symm
    rw [nodeSizeNetE, if_neg hne]

/-- Witness for C6's amended statement at the shipped configuration
min_correlation = 0.5. -/
theorem C6_degenerate_range_amended_witness :
    ((1:Rat)/2 ≠ 1) ∧
    nodeSizeNetE (1/2) 3 10 (3/4) = Except.ok (nodeSizeNet (1/2) 3 10 (3/4)) :=
  ⟨by norm_num, C6_degenerate_range_amended.2 (1/2) 3 10 (3/4) (by norm_num)⟩

/-! ### Claim C1 -/

/-- C1 counterexample: in the tree variant a gene occurring twice in a
single category's table is classified cross-category
(len(gene_tumors[g]) = 2 > 1) although every input pair carries the
same single category A. -/
theorem C1_counterexample :
    is_cross_tumor_tree 1000 [("A", [⟨"g", 9/10⟩, ⟨"g", 4/5⟩])] "g" = true ∧
    ∀ cr ∈ flatten_tables [("A", [⟨"g", 9/10⟩, ⟨"g", 4/5⟩])], cr.1 = "A" := by
  constructor
  · norm_num [is_cross_tumor_tree, lookupTumors, gene_tumors_of, nlargest,
      List.insertionSort, List.orderedInsert, alistAppendOne, alistFind]
  · intro cr hcr
    simp only [flatten_tables, List.foldl_cons, List.foldl_nil, List.map_cons, List.map_nil,
      List.nil_append] at hcr
    rcases List.mem_cons.mp hcr with rfl | hcr2
    · rfl
    · rcases List.mem_cons.mp hcr2 with rfl | hcr3
      · rfl
      · simp at hcr3

/-- C1 amended: the network variant's dict-based membership classifies
a gene cross-category exactly when two distinct categories carry it,
for every ordering of the flattened input; the tree variant's
list-append bookkeeping agrees only when each category's capped table
lists each gene at most once, in which case its recorded tumor list is
exactly the categories whose capped table contains the gene. -/
theorem C1_classification_amended :
    (∀ (pairs : List (String × Row)) (g : String),
      is_cross_tumor (all_genes_of pairs) g = true ↔
        ∃ c1 r1 c2 r2, (c1, r1) ∈ pairs ∧ (c2, r2) ∈ pairs ∧
          r1.gene = g ∧ r2.gene = g ∧ c1 ≠ c2) ∧
    (∀ (pairs pairs2 : List (String × Row)), List.Perm pairs pairs2 →
      ∀ g, is_cross_tumor (all_genes_of pairs) g = is_cross_tumor (all_genes_of pairs2) g) ∧
    (∀ (maxN : Nat) (tables : List (String × List Row)) (g : String),
      (∀ ct ∈ tables, (ct.2.map Row.gene).Nodup) →
      lookupTumors g (gene_tumors_of maxN tables) =
        (tables.filter (fun ct => decide (g ∈ (nlargest maxN ct.2).map Row.gene))).map
          Prod.fst) := by
  refine ⟨fun pairs g => cross_iff_two_categories pairs g, ?_, fun maxN tables g h =>
    lookupTumors_of_nodup h g⟩
  intro pairs pairs2 hperm g
  have hiff : is_cross_tumor (all_genes_of pairs) g = true ↔
      is_cross_tumor (all_genes_of pairs2) g = true := by
    rw [cross_iff_two_categories, cross_iff_two_categories]
    constructor
    · rintro ⟨c1, r1, c2, r2, h1, h2, h3, h4, h5⟩
      exact ⟨c1, r1, c2, r2, hperm.mem_iff.mp h1, hperm.mem_iff.mp h2, h3, h4, h5⟩
    · rintro ⟨c1, r1, c2, r2, h1, h2, h3, h4, h5⟩
      exact ⟨c1, r1, c2, r2, hperm.mem_iff.mpr h1, hperm.mem_iff.mpr h2, h3, h4, h5⟩
  cases hb1 : is_cross_tumor (all_genes_of pairs) g with
  | true => exact (hiff.mp hb1).symm
  | false =>
    cases hb2 : is_cross_tumor (all_genes_of pairs2) g with
    | true => exact absurd (hiff.mpr hb2) (by rw [hb1]; exact Bool.false_ne_true)
    | false => rfl

/-- Witness for C1's amended statement: deduplicated tables over two
categories sharing gene g1. -/
theorem C1_classification_amended_witness :
    (∀ ct ∈ [("A", [⟨"g1", (9:Rat)/10⟩]), ("B", [⟨"g1", (7:Rat)/10⟩])],
      (ct.2.map Row.gene).Nodup) ∧
    lookupTumors "g1"
        (gene_tumors_of 1000 [("A", [⟨"g1", (9:Rat)/10⟩]), ("B", [⟨"g1", (7:Rat)/10⟩])]) =
      ([("A", [⟨"g1", (9:Rat)/10⟩]), ("B", [⟨"g1", (7:Rat)/10⟩])].filter
        (fun ct => decide ("g1" ∈ (nlargest 1000 ct.2).map Row.gene))).map Prod.fst := by
  have h : ∀ ct ∈ [("A", [⟨"g1", (9:Rat)/10⟩]), ("B", [⟨"g1", (7:Rat)/10⟩])],
      (ct.2.map Row.gene).Nodup := by
    intro ct hct
    rcases List.mem_cons.mp hct with rfl | hct2
    · simp
    · rcases List.mem_cons.mp hct2 with rfl | hct3
      · simp
      · simp at hct3
  exact ⟨h, C1_classification_amended.2.2 1000 _ "g1" h⟩

/-! ### Claim C4 -/

/-- C4 counterexample: a duplicated (gene, category) pair keeps the
last score 0.6, not the maximum 0.9. -/
theorem C4_counterexample :
    alistFind "A" (lookupD "g" (all_genes_of [("A", ⟨"g", 9/10⟩), ("A", ⟨"g", 3/5⟩)]))
      = some (3/5) ∧ ((3:Rat)/5) ≠ max (9/10) (3/5) := by
  constructor
  · norm_num [all_genes_of, aggregateStep, alistInsert, lookupD, alistFind]
  · rw [max_eq_left (by norm_num : (3:Rat)/5 ≤ 9/10)]
    norm_num

/-- C4 amended: on a recurring (entity, category) pair the aggregation
is last-write-wins: the stored score is the PCC of the last input pair
carrying that gene and category, regardless of which score is higher. -/
theorem C4_last_write_amended (pairs : List (String × Row)) (g c : String) :
    alistFind c (lookupD g (all_genes_of pairs)) =
      (pairs.reverse.find? (fun cr => decide (cr.2.gene = g ∧ cr.1 = c))).map
        (fun cr => cr.2.pcc) :=
  scoreAt_all_genes pairs g c

/-! ### Claim C5 -/

/-- C5: the representative category of a cross-category entity is the
first entry attaining the maximal score in the stable iteration order
of its per-category dict, as computed by python max with a key
function; hence the choice is deterministic. -/
theorem C5_representative_argmax (l : TumorPccs) (h : l ≠ []) :
    ∃ r l1 l2, py_max l = some r ∧ main_tumor_of l = some r.1 ∧ l = l1 ++ r :: l2 ∧
      (∀ y ∈ l1, y.2 < r.2) ∧ (∀ y ∈ l2, y.2 ≤ r.2) ∧ (∀ y ∈ l, y.2 ≤ r.2) := by
  obtain ⟨r, l1, l2, hr, hdec, h1, h2, hall⟩ := py_max_first_argmax h
  refine ⟨r, l1, l2, hr, ?_, hdec, h1, h2, hall⟩
  rw [main_tumor_of, hr]
  rfl

/-- Witness for C5 on a tie: categories A and B both score 0.9 and the
first-seen category A is chosen. -/
theorem C5_representative_argmax_witness :
    ([("A", (9:Rat)/10), ("B", 9/10)] ≠ ([] : TumorPccs)) ∧
    (∃ r l1 l2, py_max [("A", (9:Rat)/10), ("B", 9/10)] = some r ∧
      main_tumor_of [("A", (9:Rat)/10), ("B", 9/10)] = some r.1 ∧
      [("A", (9:Rat)/10), ("B", 9/10)] = l1 ++ r :: l2 ∧
      (∀ y ∈ l1, y.2 < r.2) ∧ (∀ y ∈ l2, y.2 ≤ r.2) ∧
      (∀ y ∈ [("A", (9:Rat)/10), ("B", 9/10)], y.2 ≤ r.2)) :=
  ⟨by simp, C5_representative_argmax [("A", (9:Rat)/10), ("B", 9/10)] (by simp)⟩

/-! ### Claim C7 -/

/-- C7: the loader fails per category, not globally: a discovered
category is bound to its threshold-filtered table exactly when its own
source read succeeds, and a failing source removes only that category
while every other surviving category keeps its filtered table. -/
theorem C7_per_category_load (cats : List String) (src : String → Except String (List Row))
    (minC : Rat) (c : String) :
    alistFind c (load_all_data cats src minC) =
      if c ∈ cats then
        match src c with
        | Except.ok df => some (df.filter (fun r => minC ≤ r.pcc))
        | Except.error _ => none
      else none :=
  load_all_data_char cats src minC c

/-! ### Claim C8 -/

/-- C8 counterexample: with a cap of 1 on category A = {g1: 0.9,
g2: 0.6}, the tree variant drops g2 from A's membership, but the
network variant — whose max_genes_per_tumor setting is never applied —
still aggregates g2 with its score, so the cap is not applied
consistently in both variants. -/
theorem C8_counterexample :
    lookupTumors "g2" (gene_tumors_of 1 [("A", [⟨"g1", 9/10⟩, ⟨"g2", 3/5⟩])]) = [] ∧
    alistFind "g2" (all_genes_of (flatten_tables [("A", [⟨"g1", 9/10⟩, ⟨"g2", 3/5⟩])]))
      = some [("A", 3/5)] := by
  constructor
  · norm_num [lookupTumors, gene_tumors_of, nlargest, List.insertionSort,
      List.orderedInsert, alistAppendOne, alistFind]
    decide
  · norm_num [flatten_tables, all_genes_of, aggregateStep, alistInsert, lookupD, alistFind]
    decide

/-- C8 amended: only the tree variant caps tables: a category is
recorded for a gene only if the gene survives that category's top-N,
and the retained rows score at least every dropped row; the network
variant defines the cap setting but never applies it — every filtered
row's gene enters the membership. -/
theorem C8_cap_amended :
    (∀ (maxN : Nat) (tables : List (String × List Row)) (g c : String),
      c ∈ lookupTumors g (gene_tumors_of maxN tables) →
        ∃ t, (c, t) ∈ tables ∧ g ∈ (nlargest maxN t).map Row.gene) ∧
    (∀ (n : Nat) (df : List Row), ∀ a ∈ nlargest n df,
      ∀ b ∈ (df.insertionSort (fun x y => y.pcc ≤ x.pcc)).drop n, b.pcc ≤ a.pcc) ∧
    (∀ (pairs : List (String × Row)) (c : String) (r : Row), (c, r) ∈ pairs →
      (alistFind r.gene (all_genes_of pairs)).isSome = true) := by
  refine ⟨fun maxN tables g c h => lookupTumors_mem_source h, ?_, ?_⟩
  · intro n df a ha b hb
    haveI htot : IsTotal Row (fun x y => y.pcc ≤ x.pcc) := ⟨fun x y => le_total y.pcc x.pcc⟩
    haveI htr : IsTrans Row (fun x y => y.pcc ≤ x.pcc) :=
      ⟨fun x y z h1 h2 => le_trans h2 h1⟩
    have hsorted := List.sorted_insertionSort (fun x y : Row => y.pcc ≤ x.pcc) df
    rw [← List.take_append_drop n (df.insertionSort (fun x y => y.pcc ≤ x.pcc))] at hsorted
    have hcross := (List.pairwise_append.mp hsorted).2.2
    rw [nlargest] at ha
    exact hcross a ha b hb
  · intro pairs c r h
    have h2 : (alistFind c (lookupD r.gene (all_genes_of pairs))).isSome = true :=
      (scoreAt_isSome_iff pairs r.gene c).mpr ⟨r, h, rfl⟩
    cases houter : alistFind r.gene (all_genes_of pairs) with
    | some l => rfl
    | none =>
      rw [lookupD, houter] at h2
      simp [alistFind] at h2

/-- Witness for C8's amended statement: with a cap of 1 the surviving
gene g1 has category A recorded, coming from A's top-1 table. -/
theorem C8_cap_amended_witness :
    ("A" ∈ lookupTumors "g1" (gene_tumors_of 1 [("A", [⟨"g1", (9:Rat)/10⟩, ⟨"g2", 3/5⟩])])) ∧
    (∃ t, ("A", t) ∈ [("A", [⟨"g1", (9:Rat)/10⟩, ⟨"g2", (3:Rat)/5⟩])] ∧
      "g1" ∈ (nlargest 1 t).map Row.gene) := by
  have h : "A" ∈ lookupTumors "g1"
      (gene_tumors_of 1 [("A", [⟨"g1", (9:Rat)/10⟩, ⟨"g2", 3/5⟩])]) := by
    norm_num [lookupTumors, gene_tumors_of, nlargest, List.insertionSort,
      List.orderedInsert, alistAppendOne, alistFind]
  exact ⟨h, C8_cap_amended.1 1 _ "g1" "A" h⟩

/-! ### Claim C9 -/

/-- C9 counterexample: a category whose filtered table is empty gets no
tumor node in the tree variant (it is skipped), while the network
variant still creates its node. -/
theorem C9_counterexample :
    tree_tumor_nodes [("A", [])] = [] ∧ net_tumor_nodes ["A"] [("A", [])] = ["A"] := by
  constructor
  · rfl
  · simp +decide [net_tumor_nodes, alistFind]

/-- C9 amended: the network variant creates a tumor node for every
discovered category present in the loaded data, including categories
whose filtered table is empty; the tree variant creates a tumor node
only for categories with a nonempty filtered table, skipping empty
ones. -/
theorem C9_empty_category_amended :
    (∀ (types : List String) (data : List (String × List Row)) (c : String),
      c ∈ net_tumor_nodes types data ↔ c ∈ types ∧ (alistFind c data).isSome) ∧
    (∀ (data : List (String × List Row)) (c : String),
      c ∈ tree_tumor_nodes data ↔ ∃ t, (c, t) ∈ data ∧ t ≠ []) :=
  ⟨mem_net_tumor_nodes, mem_tree_tumor_nodes⟩

/-! ### Claim C10 -/

/-- C10: when the aggregation input is the loader's output (every score
at least min_correlation), every stored per-category score of every
gene satisfies the per-edge guard pcc ≥ min_correlation, and the
representative score returned by python max never triggers the
main_pcc < min_correlation skip, so no cross-tumor node or edge is
dropped by these checks. -/
theorem C10_thresholded_guards (pairs : List (String × Row)) (minC : Rat)
    (h : ∀ cr ∈ pairs, minC ≤ cr.2.pcc) (g : String) (l : TumorPccs)
    (hfind : alistFind g (all_genes_of pairs) = some l) :
    (∀ cp ∈ l, minC ≤ cp.2) ∧ (∀ m, py_max l = some m → ¬ (m.2 < minC)) := by
  have hl : lookupD g (all_genes_of pairs) = l := by
    rw [lookupD, hfind]
    rfl
  have hmem : ∀ cp ∈ l, minC ≤ cp.2 := by
    intro cp hcp
    have hkeys : (l.map Prod.fst).Nodup := by
      rw [← hl]
      exact nodup_inner_keys pairs g
    have hf : alistFind cp.1 l = some cp.2 := by
      apply alistFind_eq_of_mem hkeys
      simpa using hcp
    have hsc : alistFind cp.1 (lookupD g (all_genes_of pairs)) = some cp.2 := by
      rw [hl]
      exact hf
    obtain ⟨r, hrmem, hrg, hrp⟩ := scoreAt_provenance hsc
    have hle := h (cp.1, r) hrmem
    simpa [hrp] using hle
  refine ⟨hmem, ?_⟩
  intro m hm
  have hle := hmem m (py_max_mem hm)
  linarith

/-- Witness for C10 on loader-shaped input at the shipped threshold
0.5. -/
theorem C10_thresholded_guards_witness :
    (∀ cr ∈ [("A", (⟨"g", (9:Rat)/10⟩ : Row)), ("B", ⟨"g", 7/10⟩)], (1:Rat)/2 ≤ cr.2.pcc) ∧
    ((∀ cp ∈ [("A", (9:Rat)/10), ("B", (7:Rat)/10)], (1:Rat)/2 ≤ cp.2) ∧
      (∀ m, py_max [("A", (9:Rat)/10), ("B", (7:Rat)/10)] = some m →
        ¬ (m.2 < (1:Rat)/2))) := by
  have hpre : ∀ cr ∈ [("A", (⟨"g", (9:Rat)/10⟩ : Row)), ("B", ⟨"g", 7/10⟩)],
      (1:Rat)/2 ≤ cr.2.pcc := by
    intro cr hcr
    rcases List.mem_cons.mp hcr with rfl | hcr2
    · norm_num
    · rcases List.mem_cons.mp hcr2 with rfl | hcr3
      · norm_num
      · simp at hcr3
  have hfind : alistFind "g"
      (all_genes_of [("A", (⟨"g", (9:Rat)/10⟩ : Row)), ("B", ⟨"g", 7/10⟩)])
      = some [("A", (9:Rat)/10), ("B", (7:Rat)/10)] := by
    norm_num [all_genes_of, aggregateStep, alistInsert, lookupD, alistFind]
    decide
  exact ⟨hpre, C10_thresholded_guards _ _ hpre "g" _ hfind⟩
